import Mathlib

/-!
Verification of the `cats` string-building library (src/traits.rs, src/lib.rs).

The Rust code is shallowly embedded: u64 values are `Nat` with wraparound
taken explicitly `% W64` where the source uses `Wrapping` or where release-mode
overflow can occur; `&str` values are `List Char` (their Rust byte length is
`byteLen`, the total UTF-8 size); i64 values are `Int`; fallible sinks are
modelled for the pipeline claims by explicit state passing with `Except`.
-/

/-- 2^64, the u64 wraparound modulus. -/
def W64 : Nat := 18446744073709551616

/-- UTF-8 byte length of a character list, i.e. the Rust byte length of the
corresponding `&str` (`s.len()` / the count returned by `push_str`). -/
def byteLen (s : List Char) : Nat := (s.map Char.utf8Size).sum

/-- `SignPolicy` from src/traits.rs: what to print before a positive integer. -/
inductive SignPolicy where
  | Plus
  | Space
  | Empty
deriving DecidableEq

/-- `FormattedInt` descriptor from src/traits.rs.  The Rust fields
`prefix`/`suffix` are `&str`s, embedded as `pre`/`suf : List Char`
(`prefix` is a Lean keyword); `digits` is the digit alphabet slice. -/
structure FormattedInt where
  pre : List Char
  suf : List Char
  digits : List Char
  min_len : Nat
  sign : SignPolicy

/-- `FormattedInt::sign_len` from src/traits.rs lines 78-83. -/
def FormattedInt.sign_len (fi : FormattedInt) : Nat :=
  match fi.sign with
  | SignPolicy.Plus => 1
  | SignPolicy.Space => 1
  | SignPolicy.Empty => 0

/-- `FormattedInt::with_fanciness` from src/traits.rs lines 85-89:
pad the digit count `s` up to `min_len`, then add the byte lengths of the
affixes and the sign glyph. -/
def FormattedInt.with_fanciness (fi : FormattedInt) (s : Nat) : Nat :=
  let padded := if s < fi.min_len then fi.min_len else s
  padded + byteLen fi.pre + byteLen fi.suf + fi.sign_len

/-- The loop of `FormattedInt::num_digits` (src/traits.rs lines 91-104).
`base` and `limit` are `Wrapping<u64>` in the source, so the product is taken
`% W64`; the loop condition `base * limit > limit` and the test
`limit > Wrapping(x)` compare the wrapped values.  The loop body strictly
increases `limit < W64`, so `W64` units of fuel always suffice; the
fuel-exhausted branch returns `length` exactly like a final failed condition.
-/
def numDigitsLoop (base x : Nat) : Nat → Nat → Nat → Nat
  | 0, length, _ => length
  | fuel+1, length, limit =>
    if limit < base * limit % W64 then
      if x < limit then length
      else numDigitsLoop base x fuel (length + 1) (base * limit % W64)
    else length

/-- `FormattedInt::num_digits` from src/traits.rs lines 91-104; the initial
`length` is 1 and the initial `limit` is `digits.len() as u64`. -/
def FormattedInt.num_digits (fi : FormattedInt) (x : Nat) : Nat :=
  numDigitsLoop (fi.digits.length % W64) x W64 1 (fi.digits.length % W64)

/-- The loop of `FormattedInt::reverse` (src/traits.rs lines 106-116).
The accumulation `r * base + x % base` is plain u64 arithmetic in the source
and wraps in release builds, hence the `% W64`.  For any radix `base ≥ 2`
each iteration replaces `x` by `x / base < x`, so `x` itself is enough fuel;
running out of fuel returns `r` exactly like reaching `x = 0`. -/
def revLoop (base : Nat) : Nat → Nat → Nat → Nat
  | 0, _, r => r
  | fuel+1, x, r =>
    if x = 0 then r else revLoop base fuel (x / base) ((r * base + x % base) % W64)

/-- `FormattedInt::reverse` from src/traits.rs lines 106-116. -/
def FormattedInt.reverse (fi : FormattedInt) (x : Nat) : Nat :=
  revLoop (fi.digits.length % W64) x x 0

/-- The digit-printing loop of `Format<u64>::write` (src/traits.rs lines
152-155): `n` times, emit `digits[(r % base) as usize]` and divide `r` by the
radix.  Out-of-range indexing (impossible for a well-formed descriptor)
falls back to a space. -/
def emitLoop (digits : List Char) (base : Nat) : Nat → Nat → List Char
  | 0, _ => []
  | n+1, r => digits.getD (r % base) ' ' :: emitLoop digits base n (r / base)

/-- The digit-sequence part of `Format<u64>::write` (src/traits.rs lines
147-156): compute `r = reverse(x)`; if `r == 0` emit the single zero digit,
otherwise emit `num_digits(x)` digits of `r` least-significant first. -/
def FormattedInt.digitChars (fi : FormattedInt) (x : Nat) : List Char :=
  let base := fi.digits.length % W64
  let r := fi.reverse x
  if r = 0 then [fi.digits.getD 0 ' ']
  else emitLoop fi.digits base (fi.num_digits x) r

/-- The sign glyph pushed by `Format<u64>::write` (src/traits.rs lines
135-139). -/
def FormattedInt.signChars (fi : FormattedInt) : List Char :=
  match fi.sign with
  | SignPolicy.Plus => ['+']
  | SignPolicy.Space => [' ']
  | SignPolicy.Empty => []

/-- `Format<u64>::len` from src/traits.rs lines 121-123. -/
def FormattedInt.lenU64 (fi : FormattedInt) (x : Nat) : Nat :=
  fi.with_fanciness (fi.num_digits x)

/-- `Format<u64>::write` from src/traits.rs lines 125-159, emission order:
sign glyph, the front affix, `min_len - min(num_digits x, min_len)` copies of
the zero digit, the digit sequence, the rear affix.  Every `push` reports the
UTF-8 size of its character and every `push_str` the byte length of its
string, so the reported total `written` is the accumulated UTF-8 byte length
of everything pushed. -/
def FormattedInt.writeU64 (fi : FormattedInt) (x : Nat) : List Char × Nat :=
  let padding := fi.min_len - min (fi.num_digits x) fi.min_len
  let out := fi.signChars ++ fi.pre ++
    List.replicate padding (fi.digits.getD 0 ' ') ++ fi.digitChars x ++ fi.suf
  (out, byteLen out)

/-- `x.abs() as u64` for an i64 `x` under release (wrapping) semantics
(src/traits.rs lines 193-206): the magnitude of `x`, reduced mod 2^64
(a no-op on the i64 range).  In debug builds `x.abs()` panics for
`x = i64::MIN`; see `i64AbsOverflows`. -/
def i64AbsAsU64 (x : Int) : Nat := x.natAbs % W64

/-- Whether `x.abs()` overflows for an i64 `x`: exactly at `i64::MIN`,
whose negation is not representable.  Rust panics here in debug builds. -/
def i64AbsOverflows (x : Int) : Bool := decide (x = -(2 ^ 63))

/-- `Format<i64>::len` from src/traits.rs lines 191-196. -/
def FormattedInt.lenI64 (fi : FormattedInt) (x : Int) : Nat :=
  if fi.sign = SignPolicy.Empty ∧ x < 0 then fi.lenU64 (i64AbsAsU64 x) + 1
  else fi.lenU64 (i64AbsAsU64 x)

/-- `Format<i64>::write` from src/traits.rs lines 198-208: a negative value
pushes a literal '-' and recurses on the magnitude with the sign policy
forced to `Empty`; a non-negative value delegates to the u64 path. -/
def FormattedInt.writeI64 (fi : FormattedInt) (x : Int) : List Char × Nat :=
  if x < 0 then
    let inner := ({ fi with sign := SignPolicy.Empty } : FormattedInt).writeU64 (i64AbsAsU64 x)
    ('-' :: inner.1, 1 + inner.2)
  else
    fi.writeU64 x.toNat

/-- `DECIMAL_DIGITS` from src/traits.rs line 211. -/
def DECIMAL_DIGITS : List Char := "0123456789".toList

/-- `HEX_DIGITS` from src/traits.rs lines 213-214. -/
def HEX_DIGITS : List Char := "0123456789abcdef".toList

/-- The `HEX` descriptor from src/traits.rs lines 216-222. -/
def HEX : FormattedInt :=
  { pre := [], suf := [], digits := HEX_DIGITS, min_len := 0, sign := SignPolicy.Empty }

/-- The decimal descriptor used by `Show for u64` and `Show for i64`
(src/traits.rs lines 226-232 and 276-282). -/
def decimalFI : FormattedInt :=
  { pre := [], suf := [], digits := DECIMAL_DIGITS, min_len := 0, sign := SignPolicy.Empty }

/-- `decimalFI` with the `Plus` sign policy. -/
def plusFI : FormattedInt := { decimalFI with sign := SignPolicy.Plus }

/-- `decimalFI` with the `Space` sign policy. -/
def spaceFI : FormattedInt := { decimalFI with sign := SignPolicy.Space }

/-- The binary descriptor with alphabet `['0','1']`. -/
def binFI : FormattedInt := { decimalFI with digits := ['0', '1'] }

/-- `decimalFI` with `min_len := 4`. -/
def pad4FI : FormattedInt := { decimalFI with min_len := 4 }

/-- A descriptor whose zero digit `'α'` needs two UTF-8 bytes. -/
def alphaFI : FormattedInt := { decimalFI with digits := ['α', '0'] }

/-- The base-5 descriptor with the plain ASCII alphabet `['0'..'4']`. -/
def quinFI : FormattedInt := { decimalFI with digits := ['0', '1', '2', '3', '4'] }

/-- An abstract Show-capable value for the `Rep` claims: its reported length,
and its write action on a sink state of type `σ`, returning the byte count or
a propagated sink failure together with the sink state after the call (a
failed call still returns the sink, which keeps what it already absorbed). -/
structure ShowM (σ ε : Type) where
  len : Nat
  write : σ → Except ε Nat × σ

/-- The loop of `Format<T>::write for Rep` (src/traits.rs lines 364-371):
invoke the inner write `count` times, accumulating `len += try!(..)`;
a failing iteration returns the failure at once, skipping the rest. -/
def repWriteLoop {σ ε : Type} (wr : σ → Except ε Nat × σ) :
    Nat → Nat → σ → Except ε Nat × σ
  | 0, acc, s => (Except.ok acc, s)
  | n+1, acc, s =>
    match wr s with
    | (Except.ok m, s2) => repWriteLoop wr n (acc + m) s2
    | (Except.error e, s2) => (Except.error e, s2)

/-- `Format<T>::len for Rep` from src/traits.rs line 363. -/
def repLen {σ ε : Type} (count : Nat) (t : ShowM σ ε) : Nat := count * t.len

/-- `Format<T>::write for Rep` from src/traits.rs lines 364-371. -/
def repWrite {σ ε : Type} (count : Nat) (t : ShowM σ ε) (s : σ) : Except ε Nat × σ :=
  repWriteLoop t.write count 0 s

/-- An instrumented Show value whose sink state counts completed inner
writes: invocation number `k < j` succeeds and reports `c k` bytes; the
`j`-th invocation fails with `e` and leaves the sink state unchanged. -/
def stepWriter {ε : Type} (c : Nat → Nat) (j : Nat) (e : ε) (L : Nat) : ShowM Nat ε where
  len := L
  write := fun k => if k < j then (Except.ok (c k), k + 1) else (Except.error e, k)

/-- One element of the concatenation pipeline: its write action against the
sink state, returning a byte count or the propagated sink failure, plus the
sink state after the call. -/
def ElemWriter (σ ε : Type) := σ → Except ε Nat × σ

/-- `produce_write_code!` from src/lib.rs lines 126-154: run the elements in
order accumulating `n + written`; a failing element's error is returned as
is, the accumulated count is dropped and every later element is skipped. -/
def produceWrite {σ ε : Type} (written : Nat) (s : σ) :
    List (ElemWriter σ ε) → Except ε Nat × σ
  | [] => (Except.ok written, s)
  | e :: rest =>
    match e s with
    | (Except.ok n, s2) => produceWrite (n + written) s2 rest
    | (Except.error err, s2) => (Except.error err, s2)

/-- A pipeline element that writes 3 bytes and bumps the sink state. -/
def witElemA : ElemWriter Nat Nat := fun s => (Except.ok 3, s + 1)

/-- A pipeline element that fails with error code 7. -/
def witElemFail : ElemWriter Nat Nat := fun s => (Except.error 7, s)

/-- A pipeline element that writes 5 bytes and bumps the sink state. -/
def witElemB : ElemWriter Nat Nat := fun s => (Except.ok 5, s + 1)

/-- Little-endian base-`b` digits of `x` (spec-side reference object:
"the canonical base-radix digit sequence").  Fuel-based; `x` units of fuel
suffice for any `b ≥ 2` since each step replaces `x` by `x / b < x`. -/
def canonAux (b : Nat) : Nat → Nat → List Nat
  | 0, _ => []
  | fuel+1, x => if x = 0 then [] else x % b :: canonAux b fuel (x / b)

/-- Little-endian base-`b` digits of `x`. -/
def canonDigitsLE (b x : Nat) : List Nat := canonAux b x x

/-- Modelled from the spec (sections 4.3 and 8): the canonical
most-significant-first digit glyph sequence of `x` in the alphabet of `fi`,
with magnitude zero rendered as the single digit `digit_alphabet[0]`. -/
def canonicalDigitChars (fi : FormattedInt) (x : Nat) : List Char :=
  (if x = 0 then [0] else (canonDigitsLE fi.digits.length x).reverse).map
    (fun d => fi.digits.getD d ' ')

/-- Value of a little-endian digit list in base `b`. -/
def evalLE (b : Nat) : List Nat → Nat
  | [] => 0
  | d :: L => d + b * evalLE b L

theorem canonAux_fuel_irrel (b : Nat) (hb : 2 ≤ b) :
    ∀ x fuel fuel', x ≤ fuel → x ≤ fuel' → canonAux b fuel x = canonAux b fuel' x := by
  intro x
  induction x using Nat.strong_induction_on with
  | _ x ih =>
    intro fuel fuel' hf hf'
    match x, fuel, fuel' with
    | 0, 0, 0 => rfl
    | 0, 0, f'+1 => simp [canonAux]
    | 0, f+1, 0 => simp [canonAux]
    | 0, f+1, f'+1 => simp [canonAux]
    | x+1, f+1, f'+1 =>
      simp only [canonAux, if_neg (Nat.succ_ne_zero x)]
      have hlt : (x+1) / b < x + 1 := Nat.div_lt_self (Nat.succ_pos x) (by omega)
      exact congrArg _ (ih _ hlt _ _ (by omega) (by omega))

theorem canonDigitsLE_def (b : Nat) (hb : 2 ≤ b) (x : Nat) :
    canonDigitsLE b x = if x = 0 then [] else x % b :: canonDigitsLE b (x / b) := by
  rcases Nat.eq_zero_or_pos x with h | h
  · subst h; rfl
  · have hx : x ≠ 0 := Nat.pos_iff_ne_zero.mp h
    have hlt : x / b < x := Nat.div_lt_self h (by omega)
    unfold canonDigitsLE
    match x, hx with
    | x+1, _ =>
      simp only [canonAux, if_neg (Nat.succ_ne_zero x), Nat.succ_ne_zero, if_false]
      exact congrArg _ (canonAux_fuel_irrel b hb _ _ _ (by omega) (by omega))

theorem canonDigitsLE_zero (b : Nat) : canonDigitsLE b 0 = [] := rfl

theorem canonDigitsLE_lt (b : Nat) (hb : 2 ≤ b) :
    ∀ x, ∀ d ∈ canonDigitsLE b x, d < b := by
  intro x
  induction x using Nat.strong_induction_on with
  | _ x ih =>
    intro d hd
    rcases Nat.eq_zero_or_pos x with h | h
    · subst h; simp [canonDigitsLE_zero] at hd
    · rw [canonDigitsLE_def b hb x, if_neg (Nat.pos_iff_ne_zero.mp h)] at hd
      rcases List.mem_cons.mp hd with h1 | h1
      · subst h1; exact Nat.mod_lt x (by omega)
      · exact ih (x / b) (Nat.div_lt_self h (by omega)) d h1

theorem canonDigitsLE_eval (b : Nat) (hb : 2 ≤ b) :
    ∀ x, evalLE b (canonDigitsLE b x) = x := by
  intro x
  induction x using Nat.strong_induction_on with
  | _ x ih =>
    rcases Nat.eq_zero_or_pos x with h | h
    · subst h; rfl
    · rw [canonDigitsLE_def b hb x, if_neg (Nat.pos_iff_ne_zero.mp h)]
      simp only [evalLE]
      rw [ih (x / b) (Nat.div_lt_self h (by omega))]
      exact Nat.mod_add_div x b

theorem canonDigitsLE_length_le_iff (b : Nat) (hb : 2 ≤ b) :
    ∀ x k, x < b ^ k ↔ (canonDigitsLE b x).length ≤ k := by
  intro x
  induction x using Nat.strong_induction_on with
  | _ x ih =>
    intro k
    rcases Nat.eq_zero_or_pos x with h | h
    · subst h
      rw [canonDigitsLE_zero]
      simp only [List.length_nil]
      exact iff_of_true (pow_pos (by omega) k) (Nat.zero_le k)
    · rw [canonDigitsLE_def b hb x, if_neg (Nat.pos_iff_ne_zero.mp h)]
      cases k with
      | zero =>
        simp only [pow_zero, List.length_cons]
        omega
      | succ k =>
        have hlt : x / b < x := Nat.div_lt_self h (by omega)
        have hdiv : x / b < b ^ k ↔ x < b ^ (k + 1) := by
          rw [pow_succ]
          exact Nat.div_lt_iff_lt_mul (by omega)
        rw [← hdiv, ih (x / b) hlt k]
        simp only [List.length_cons]
        omega

theorem evalLE_lt (b : Nat) (hb : 2 ≤ b) :
    ∀ M : List Nat, (∀ d ∈ M, d < b) → evalLE b M < b ^ M.length := by
  intro M
  induction M with
  | nil => intro _; simpa [evalLE] using Nat.pos_pow_of_pos 0 (by omega : 0 < b)
  | cons d M ih =>
    intro h
    have hd : d < b := h d (List.mem_cons_self d M)
    have hM : evalLE b M < b ^ M.length := ih (fun e he => h e (List.mem_cons_of_mem d he))
    simp only [evalLE, List.length_cons, pow_succ]
    have h1 : d + b * evalLE b M < b * (evalLE b M + 1) := by
      rw [Nat.mul_succ]
      omega
    have h2 : b * (evalLE b M + 1) ≤ b * b ^ M.length := Nat.mul_le_mul_left b hM
    calc d + b * evalLE b M < b * (evalLE b M + 1) := h1
    _ ≤ b * b ^ M.length := h2
    _ = b ^ M.length * b := Nat.mul_comm b _

theorem evalLE_eq_zero (b : Nat) (hb : 2 ≤ b) :
    ∀ M : List Nat, evalLE b M = 0 → ∀ d ∈ M, d = 0 := by
  intro M
  induction M with
  | nil => intro _ d hd; simp at hd
  | cons a M ih =>
    intro h d hd
    simp only [evalLE] at h
    have he : b * evalLE b M = 0 := by omega
    have h0 : evalLE b M = 0 := by
      rcases Nat.mul_eq_zero.mp he with h2 | h2
      · omega
      · exact h2
    rcases List.mem_cons.mp hd with h1 | h1
    · omega
    · exact ih h0 d h1

theorem evalLE_append_single (b : Nat) :
    ∀ (M : List Nat) (d : Nat), evalLE b (M ++ [d]) = evalLE b M + d * b ^ M.length := by
  intro M
  induction M with
  | nil => intro d; simp [evalLE]
  | cons a M ih =>
    intro d
    show evalLE b (a :: (M ++ [d])) = evalLE b (a :: M) + d * b ^ (a :: M).length
    simp only [evalLE, ih, List.length_cons, pow_succ]
    ring

theorem evalLE_of_all_zero (b : Nat) :
    ∀ M : List Nat, (∀ d ∈ M, d = 0) → evalLE b M = 0 := by
  intro M
  induction M with
  | nil => intro _; rfl
  | cons a M ih =>
    intro h
    simp only [evalLE]
    rw [h a (List.mem_cons_self a M), ih (fun e he => h e (List.mem_cons_of_mem a he))]
    simp

theorem W64_pos : 0 < W64 := by decide

theorem mulAddMod (a c e n : Nat) : (a % n * c + e) % n = (a * c + e) % n := by
  conv_lhs => rw [Nat.add_mod, Nat.mul_mod, Nat.mod_mod_of_dvd a (dvd_refl n)]
  conv_rhs => rw [Nat.add_mod, Nat.mul_mod]

theorem revLoop_spec (b : Nat) (hb : 2 ≤ b) :
    ∀ x fuel r, x ≤ fuel → r < W64 →
      revLoop b fuel x r =
        (r * b ^ (canonDigitsLE b x).length + evalLE b (canonDigitsLE b x).reverse) % W64 := by
  intro x
  induction x using Nat.strong_induction_on with
  | _ x ih =>
    intro fuel r hf hr
    rcases Nat.eq_zero_or_pos x with h | h
    · subst h
      cases fuel with
      | zero => simp [revLoop, canonDigitsLE_zero, evalLE, Nat.mod_eq_of_lt hr]
      | succ f => simp [revLoop, canonDigitsLE_zero, evalLE, Nat.mod_eq_of_lt hr]
    · have hx : x ≠ 0 := Nat.pos_iff_ne_zero.mp h
      obtain ⟨f, rfl⟩ : ∃ f, fuel = f + 1 := ⟨fuel - 1, by omega⟩
      simp only [revLoop, if_neg hx]
      have hlt : x / b < x := Nat.div_lt_self h (by omega)
      rw [ih (x / b) hlt f _ (by omega) (Nat.mod_lt _ W64_pos)]
      rw [mulAddMod]
      rw [canonDigitsLE_def b hb x, if_neg hx]
      simp only [List.length_cons, List.reverse_cons, evalLE_append_single,
        List.length_reverse]
      congr 1
      ring

/-- `FormattedInt::reverse` computes the value of the reversed canonical digit
sequence, wrapped mod 2^64. -/
theorem reverse_spec (fi : FormattedInt) (hb : 2 ≤ fi.digits.length)
    (hW : fi.digits.length < W64) (x : Nat) :
    fi.reverse x =
      evalLE fi.digits.length (canonDigitsLE fi.digits.length x).reverse % W64 := by
  unfold FormattedInt.reverse
  rw [Nat.mod_eq_of_lt hW]
  rw [revLoop_spec fi.digits.length hb x x 0 le_rfl W64_pos]
  simp

/-- When a power of the radix dominating `x` fits in 64 bits, the reversal
does not wrap. -/
theorem reverse_no_wrap (fi : FormattedInt) (hb : 2 ≤ fi.digits.length) (x p : Nat)
    (hx : x < fi.digits.length ^ p) (hp : fi.digits.length ^ p < W64) :
    fi.reverse x =
      evalLE fi.digits.length (canonDigitsLE fi.digits.length x).reverse := by
  rcases Nat.eq_zero_or_pos x with hx0 | hx0
  · subst hx0
    simp [FormattedInt.reverse, revLoop, canonDigitsLE_zero, evalLE]
  have hppos : 1 ≤ p := by
    by_contra hc
    have hp0 : p = 0 := by omega
    subst hp0
    simp at hx
    omega
  have hbW : fi.digits.length < W64 := by
    have h1 : fi.digits.length ≤ fi.digits.length ^ p := by
      calc fi.digits.length = fi.digits.length ^ 1 := (pow_one _).symm
      _ ≤ fi.digits.length ^ p := Nat.pow_le_pow_right (by omega) hppos
    omega
  rw [reverse_spec fi hb hbW x]
  apply Nat.mod_eq_of_lt
  have hlen : (canonDigitsLE fi.digits.length x).length ≤ p :=
    (canonDigitsLE_length_le_iff _ hb x p).mp hx
  have hval : evalLE fi.digits.length (canonDigitsLE fi.digits.length x).reverse <
      fi.digits.length ^ (canonDigitsLE fi.digits.length x).reverse.length := by
    apply evalLE_lt _ hb
    intro d hd
    exact canonDigitsLE_lt _ hb x d (List.mem_reverse.mp hd)
  rw [List.length_reverse] at hval
  calc evalLE fi.digits.length (canonDigitsLE fi.digits.length x).reverse
      < fi.digits.length ^ (canonDigitsLE fi.digits.length x).length := hval
  _ ≤ fi.digits.length ^ p := Nat.pow_le_pow_right (by omega) hlen
  _ < W64 := hp

/-- Under the same no-wrap condition, the reversal of a nonzero magnitude is
nonzero. -/
theorem reverse_ne_zero (fi : FormattedInt) (hb : 2 ≤ fi.digits.length) (x p : Nat)
    (hx : x < fi.digits.length ^ p) (hp : fi.digits.length ^ p < W64) (hx0 : x ≠ 0) :
    fi.reverse x ≠ 0 := by
  rw [reverse_no_wrap fi hb x p hx hp]
  intro hzero
  apply hx0
  have hall : ∀ d ∈ (canonDigitsLE fi.digits.length x).reverse, d = 0 :=
    evalLE_eq_zero _ hb _ hzero
  have hall2 : ∀ d ∈ canonDigitsLE fi.digits.length x, d = 0 := by
    intro d hd
    exact hall d (List.mem_reverse.mpr hd)
  have := evalLE_of_all_zero fi.digits.length _ hall2
  rw [canonDigitsLE_eval _ hb x] at this
  exact this

theorem numDigitsLoop_succ (base x fuel length limit : Nat) :
    numDigitsLoop base x (fuel + 1) length limit =
      if limit < base * limit % W64 then
        if x < limit then length
        else numDigitsLoop base x fuel (length + 1) (base * limit % W64)
      else length := rfl

theorem numDigitsLoop_zero_x (base fuel length limit : Nat) :
    numDigitsLoop base 0 (fuel + 1) length limit = length := by
  by_cases hc : limit < base * limit % W64
  · have hl : 0 < limit := by
      rcases Nat.eq_zero_or_pos limit with h0 | h0
      · subst h0
        simp at hc
      · exact h0
    rw [numDigitsLoop_succ, if_pos hc, if_pos hl]
  · rw [numDigitsLoop_succ, if_neg hc]

/-- Magnitude zero always counts as exactly one digit, for every descriptor. -/
theorem num_digits_zero (fi : FormattedInt) : fi.num_digits 0 = 1 :=
  numDigitsLoop_zero_x (fi.digits.length % W64) 18446744073709551615 1
    (fi.digits.length % W64)

theorem numDigitsLoop_correct (b x d : Nat) (hb : 2 ≤ b)
    (hxd : x < b ^ d) (hdW : b ^ d < W64) (hlow : ∀ i, i < d → b ^ i ≤ x) :
    ∀ fuel j, 1 ≤ j → j ≤ d → d - j < fuel → numDigitsLoop b x fuel j (b ^ j) = d := by
  intro fuel
  induction fuel with
  | zero => intro j h1 h2 h3; omega
  | succ f ih =>
    intro j h1 h2 h3
    rw [numDigitsLoop_succ]
    rcases eq_or_lt_of_le h2 with he | hlt2
    · subst he
      by_cases hcond : b ^ j < b * b ^ j % W64
      · rw [if_pos hcond, if_pos hxd]
      · rw [if_neg hcond]
    · have hj1 : b ^ (j + 1) ≤ b ^ d := Nat.pow_le_pow_right (by omega) (by omega)
      have hmod : b * b ^ j % W64 = b ^ (j + 1) := by
        rw [← pow_succ']
        exact Nat.mod_eq_of_lt (lt_of_le_of_lt hj1 hdW)
      rw [hmod]
      have hcond : b ^ j < b ^ (j + 1) := Nat.pow_lt_pow_succ (by omega)
      rw [if_pos hcond, if_neg (not_lt.mpr (hlow j hlt2))]
      exact ih (j + 1) (by omega) (by omega) (by omega)

/-- Whenever some power of the radix that dominates `x` fits in 64 bits,
`num_digits` returns the canonical digit count. -/
theorem num_digits_correct (fi : FormattedInt) (hb : 2 ≤ fi.digits.length) (x p : Nat)
    (hx : x < fi.digits.length ^ p) (hp : fi.digits.length ^ p < W64) (hx0 : x ≠ 0) :
    fi.num_digits x = (canonDigitsLE fi.digits.length x).length := by
  have hdpos : 1 ≤ (canonDigitsLE fi.digits.length x).length := by
    rw [canonDigitsLE_def _ hb x, if_neg hx0]
    simp
  have hdle : (canonDigitsLE fi.digits.length x).length ≤ p :=
    (canonDigitsLE_length_le_iff _ hb x p).mp hx
  have hxd : x < fi.digits.length ^ (canonDigitsLE fi.digits.length x).length :=
    (canonDigitsLE_length_le_iff _ hb x _).mpr le_rfl
  have hdW : fi.digits.length ^ (canonDigitsLE fi.digits.length x).length < W64 :=
    lt_of_le_of_lt (Nat.pow_le_pow_right (by omega) hdle) hp
  have hlow : ∀ i, i < (canonDigitsLE fi.digits.length x).length →
      fi.digits.length ^ i ≤ x := by
    intro i hi
    by_contra hcon
    push_neg at hcon
    have := (canonDigitsLE_length_le_iff _ hb x i).mp hcon
    omega
  have hbW : fi.digits.length < W64 := by
    have h1 : fi.digits.length = fi.digits.length ^ 1 := (pow_one _).symm
    have h2 : fi.digits.length ^ 1 ≤
        fi.digits.length ^ (canonDigitsLE fi.digits.length x).length :=
      Nat.pow_le_pow_right (by omega) hdpos
    omega
  have hdlt : (canonDigitsLE fi.digits.length x).length - 1 < W64 := by
    have h3 : (canonDigitsLE fi.digits.length x).length <
        2 ^ (canonDigitsLE fi.digits.length x).length := Nat.lt_two_pow _
    have h4 : 2 ^ (canonDigitsLE fi.digits.length x).length ≤
        fi.digits.length ^ (canonDigitsLE fi.digits.length x).length :=
      Nat.pow_le_pow_left hb _
    omega
  unfold FormattedInt.num_digits
  rw [Nat.mod_eq_of_lt hbW]
  have hmain := numDigitsLoop_correct fi.digits.length x
    (canonDigitsLE fi.digits.length x).length hb hxd hdW hlow W64 1 le_rfl hdpos hdlt
  rw [pow_one] at hmain
  exact hmain

theorem emitLoop_eval (digits : List Char) (base : Nat) (hbase : 0 < base) :
    ∀ M : List Nat, (∀ d ∈ M, d < base) →
      emitLoop digits base M.length (evalLE base M) =
        M.map (fun d => digits.getD d ' ') := by
  intro M
  induction M with
  | nil => intro _; rfl
  | cons d M ih =>
    intro h
    have hd : d < base := h d (List.mem_cons_self d M)
    simp only [List.length_cons, emitLoop, evalLE, List.map_cons]
    have hmod : (d + base * evalLE base M) % base = d := by
      rw [Nat.add_mul_mod_self_left, Nat.mod_eq_of_lt hd]
    have hdiv : (d + base * evalLE base M) / base = evalLE base M := by
      rw [Nat.add_mul_div_left _ _ hbase, Nat.div_eq_of_lt hd, zero_add]
    rw [hmod, hdiv, ih (fun e he => h e (List.mem_cons_of_mem d he))]

theorem emitLoop_length (digits : List Char) (base : Nat) :
    ∀ n r, (emitLoop digits base n r).length = n := by
  intro n
  induction n with
  | zero => intro r; rfl
  | succ m ih =>
    intro r
    simp only [emitLoop, List.length_cons, ih]

theorem byteLen_nil : byteLen [] = 0 := rfl

theorem byteLen_cons (c : Char) (s : List Char) :
    byteLen (c :: s) = c.utf8Size + byteLen s := by
  simp [byteLen]

theorem byteLen_append (a b : List Char) :
    byteLen (a ++ b) = byteLen a + byteLen b := by
  simp [byteLen]

theorem byteLen_replicate (n : Nat) (c : Char) :
    byteLen (List.replicate n c) = n * c.utf8Size := by
  simp [byteLen, List.map_replicate, List.sum_replicate, smul_eq_mul]

/-- The sign glyph is always exactly `sign_len` bytes. -/
theorem byteLen_signChars (fi : FormattedInt) : byteLen fi.signChars = fi.sign_len := by
  unfold FormattedInt.signChars FormattedInt.sign_len
  cases fi.sign <;> decide

theorem utf8Size_getD (digits : List Char) (hd : ∀ c ∈ digits, c.utf8Size = 1) :
    ∀ i : Nat, (digits.getD i ' ').utf8Size = 1 := by
  induction digits with
  | nil =>
    intro i
    rw [List.getD_nil]
    decide
  | cons a l ih =>
    intro i
    cases i with
    | zero =>
      simp only [List.getD_cons_zero]
      exact hd a (List.mem_cons_self a l)
    | succ n =>
      simp only [List.getD_cons_succ]
      exact ih (fun c hc => hd c (List.mem_cons_of_mem a hc)) n

theorem byteLen_emitLoop (digits : List Char) (hd : ∀ c ∈ digits, c.utf8Size = 1)
    (base : Nat) : ∀ n r, byteLen (emitLoop digits base n r) = n := by
  intro n
  induction n with
  | zero => intro r; rfl
  | succ m ih =>
    intro r
    simp only [emitLoop, byteLen_cons, utf8Size_getD digits hd, ih]
    omega

/-- Bytes written equal the reported length, provided each digit glyph is one
UTF-8 byte and the reversal of a nonzero magnitude does not collapse to 0. -/
theorem write_len_agree (fi : FormattedInt) (x : Nat)
    (hd : ∀ c ∈ fi.digits, c.utf8Size = 1)
    (hrev : x = 0 ∨ fi.reverse x ≠ 0) :
    (fi.writeU64 x).2 = fi.lenU64 x := by
  have h2 : (fi.writeU64 x).2 =
      byteLen (fi.signChars ++ fi.pre ++
        List.replicate (fi.min_len - min (fi.num_digits x) fi.min_len)
          (fi.digits.getD 0 ' ') ++ fi.digitChars x ++ fi.suf) := rfl
  rw [h2, byteLen_append, byteLen_append, byteLen_append, byteLen_append,
    byteLen_signChars, byteLen_replicate, utf8Size_getD fi.digits hd 0, mul_one]
  simp only [FormattedInt.lenU64, FormattedInt.with_fanciness]
  by_cases hr : fi.reverse x = 0
  · have hx0 : x = 0 := by
      rcases hrev with h | h
      · exact h
      · exact absurd hr h
    subst hx0
    rw [num_digits_zero fi]
    simp only [FormattedInt.digitChars, if_pos hr]
    rw [byteLen_cons, utf8Size_getD fi.digits hd 0, byteLen_nil]
    split <;> omega
  · simp only [FormattedInt.digitChars, if_neg hr]
    rw [byteLen_emitLoop fi.digits hd]
    split <;> omega

theorem getD_eq_get (l : List Char) :
    ∀ (i : Nat) (h : i < l.length), l.getD i ' ' = l.get ⟨i, h⟩ := by
  induction l with
  | nil => intro i h; simp at h
  | cons a t ih =>
    intro i h
    cases i with
    | zero => rfl
    | succ n =>
      simp only [List.getD_cons_succ]
      exact ih n (by simpa using h)

theorem canonDigitsLE_single (b : Nat) (hb : 2 ≤ b) (j : Nat) (h1 : 1 ≤ j) (h2 : j < b) :
    canonDigitsLE b j = [j] := by
  rw [canonDigitsLE_def b hb, if_neg (by omega), Nat.mod_eq_of_lt h2,
    Nat.div_eq_of_lt h2, canonDigitsLE_zero]

theorem reverse_small (fi : FormattedInt) (hb : 2 ≤ fi.digits.length)
    (hW : fi.digits.length < W64) (j : Nat) (h1 : 1 ≤ j) (h2 : j < fi.digits.length) :
    fi.reverse j = j := by
  have h := reverse_no_wrap fi hb j 1 (by rw [pow_one]; exact h2)
    (by rw [pow_one]; exact hW)
  rw [canonDigitsLE_single _ hb j h1 h2] at h
  simpa [evalLE] using h

theorem num_digits_small (fi : FormattedInt) (hb : 2 ≤ fi.digits.length)
    (hW : fi.digits.length < W64) (j : Nat) (h1 : 1 ≤ j) (h2 : j < fi.digits.length) :
    fi.num_digits j = 1 := by
  have h := num_digits_correct fi hb j 1 (by rw [pow_one]; exact h2)
    (by rw [pow_one]; exact hW) (by omega)
  rw [canonDigitsLE_single _ hb j h1 h2] at h
  simpa using h

/-- The digit-emission phase is the canonical most-significant-first digit
sequence, whenever a radix power dominating `x` fits in 64 bits. -/
theorem digitChars_canonical (fi : FormattedInt) (hb : 2 ≤ fi.digits.length) (x k : Nat)
    (hx : x < fi.digits.length ^ k) (hk : fi.digits.length ^ k < W64) :
    fi.digitChars x = canonicalDigitChars fi x := by
  by_cases hx0 : x = 0
  · subst hx0
    have hr : fi.reverse 0 = 0 := rfl
    simp only [FormattedInt.digitChars, hr, if_pos, canonicalDigitChars, List.map]
  · have hppos : 1 ≤ k := by
      by_contra hc
      have hk0 : k = 0 := by omega
      subst hk0
      simp at hx
      omega
    have hbW : fi.digits.length < W64 := by
      have h1 : fi.digits.length = fi.digits.length ^ 1 := (pow_one _).symm
      have h2 : fi.digits.length ^ 1 ≤ fi.digits.length ^ k :=
        Nat.pow_le_pow_right (by omega) hppos
      omega
    have hrev := reverse_no_wrap fi hb x k hx hk
    have hne : fi.reverse x ≠ 0 := reverse_ne_zero fi hb x k hx hk hx0
    have hnd := num_digits_correct fi hb x k hx hk hx0
    simp only [FormattedInt.digitChars, if_neg hne]
    rw [Nat.mod_eq_of_lt hbW, hrev, hnd]
    rw [show (canonDigitsLE fi.digits.length x).length =
      (canonDigitsLE fi.digits.length x).reverse.length from (List.length_reverse _).symm]
    rw [emitLoop_eval fi.digits fi.digits.length (by omega) _
      (fun d hd => canonDigitsLE_lt _ hb x d (List.mem_reverse.mp hd))]
    rw [canonicalDigitChars, if_neg hx0]

/-- The reported write count, decomposed by emission phase. -/
theorem writeU64_snd (fi : FormattedInt) (x : Nat) :
    (fi.writeU64 x).2 = fi.sign_len + byteLen fi.pre +
      (fi.min_len - min (fi.num_digits x) fi.min_len) * (fi.digits.getD 0 ' ').utf8Size +
      byteLen (fi.digitChars x) + byteLen fi.suf := by
  have h2 : (fi.writeU64 x).2 =
      byteLen (fi.signChars ++ fi.pre ++
        List.replicate (fi.min_len - min (fi.num_digits x) fi.min_len)
          (fi.digits.getD 0 ' ') ++ fi.digitChars x ++ fi.suf) := rfl
  rw [h2, byteLen_append, byteLen_append, byteLen_append, byteLen_append,
    byteLen_signChars, byteLen_replicate]

/-- Conversely, if the write count matches the reported length at every
magnitude whose reversal is faithful, then every digit glyph is one byte. -/
theorem agree_imp_ascii (fi : FormattedInt) (hb : 2 ≤ fi.digits.length)
    (hW : fi.digits.length < W64)
    (hagree : ∀ x, x = 0 ∨ fi.reverse x ≠ 0 → (fi.writeU64 x).2 = fi.lenU64 x) :
    ∀ c ∈ fi.digits, c.utf8Size = 1 := by
  have hP : (if 1 < fi.min_len then fi.min_len else 1) =
      (fi.min_len - min 1 fi.min_len) + 1 := by
    split <;> omega
  have h0 := hagree 0 (Or.inl rfl)
  rw [writeU64_snd] at h0
  simp only [FormattedInt.lenU64, FormattedInt.with_fanciness, FormattedInt.digitChars,
    num_digits_zero] at h0
  have hr0 : fi.reverse 0 = 0 := rfl
  rw [if_pos hr0, byteLen_cons, byteLen_nil, hP] at h0
  have hs1 : (fi.digits.getD 0 ' ').utf8Size = 1 := by
    have hkey : ((fi.min_len - min 1 fi.min_len) + 1) * (fi.digits.getD 0 ' ').utf8Size =
        ((fi.min_len - min 1 fi.min_len) + 1) * 1 := by
      rw [Nat.succ_mul, mul_one]
      omega
    exact Nat.eq_of_mul_eq_mul_left (Nat.succ_pos _) hkey
  intro c hc
  obtain ⟨⟨j, hj⟩, rfl⟩ := List.mem_iff_get.mp hc
  rcases Nat.eq_zero_or_pos j with hj0 | hj0
  · subst hj0
    rw [← getD_eq_get fi.digits 0 hj]
    exact hs1
  · have hrevj : fi.reverse j = j := reverse_small fi hb hW j hj0 hj
    have hndj : fi.num_digits j = 1 := num_digits_small fi hb hW j hj0 hj
    have hmemj := hagree j (Or.inr (by rw [hrevj]; omega))
    rw [writeU64_snd] at hmemj
    simp only [FormattedInt.lenU64, FormattedInt.with_fanciness, FormattedInt.digitChars,
      hndj] at hmemj
    rw [if_neg (by rw [hrevj]; omega), hrevj, Nat.mod_eq_of_lt hW] at hmemj
    rw [show emitLoop fi.digits fi.digits.length 1 j =
      [fi.digits.getD (j % fi.digits.length) ' '] from rfl] at hmemj
    rw [Nat.mod_eq_of_lt hj, byteLen_cons, byteLen_nil,
      getD_eq_get fi.digits j hj, hs1, mul_one, hP] at hmemj
    omega

theorem repWriteLoop_step {ε : Type} (c : Nat → Nat) (j : Nat) (e : ε) (L : Nat) :
    ∀ (count a k : Nat), k ≤ j →
      repWriteLoop (stepWriter c j e L).write count a k =
        if k + count ≤ j
        then (Except.ok (a + ((List.range count).map (fun i => c (k + i))).sum), k + count)
        else (Except.error e, j) := by
  intro count
  induction count with
  | zero =>
    intro a k hk
    rw [if_pos (by omega)]
    simp [repWriteLoop]
  | succ n ih =>
    intro a k hk
    by_cases hkj : k < j
    · have hw : (stepWriter c j e L).write k = (Except.ok (c k), k + 1) := by
        simp [stepWriter, if_pos hkj]
      simp only [repWriteLoop, hw]
      rw [ih (a + c k) (k + 1) (by omega)]
      have hfun : ((fun i => c (k + i)) ∘ Nat.succ) = (fun i => c (k + 1 + i)) := by
        funext i
        simp only [Function.comp]
        congr 1
        omega
      have hsum : ((List.range (n + 1)).map (fun i => c (k + i))).sum =
          c k + ((List.range n).map (fun i => c (k + 1 + i))).sum := by
        rw [List.range_succ_eq_map, List.map_cons, List.map_map, hfun, List.sum_cons,
          Nat.add_zero]
      by_cases hfin : k + 1 + n ≤ j
      · rw [if_pos hfin, if_pos (by omega : k + (n + 1) ≤ j), hsum]
        have h1 : a + c k + ((List.range n).map (fun i => c (k + 1 + i))).sum =
            a + (c k + ((List.range n).map (fun i => c (k + 1 + i))).sum) := by omega
        have h2 : k + 1 + n = k + (n + 1) := by omega
        rw [h1, h2]
      · rw [if_neg hfin, if_neg (by omega : ¬ k + (n + 1) ≤ j)]
    · have hkeq : k = j := by omega
      have hw : (stepWriter c j e L).write k = (Except.error e, k) := by
        simp [stepWriter, if_neg hkj]
      simp only [repWriteLoop, hw]
      rw [if_neg (by omega : ¬ k + (n + 1) ≤ j), hkeq]

/-- C1 (amended): for every descriptor and u64 value, the byte count that
`Format::write` reports equals `Format::len`, provided every character of the
digit alphabet is a single UTF-8 byte and, for a nonzero value, the wrapped
digit-reversal accumulator `reverse(x)` is nonzero. -/
theorem claim1_write_count_eq_len (fi : FormattedInt) (x : Nat)
    (hd : ∀ c ∈ fi.digits, c.utf8Size = 1)
    (hrev : x = 0 ∨ fi.reverse x ≠ 0) :
    (fi.writeU64 x).2 = fi.lenU64 x :=
  write_len_agree fi x hd hrev

/-- Witness for C1 at the decimal descriptor and the value 5. -/
theorem claim1_write_count_eq_len_witness :
    (∀ c ∈ decimalFI.digits, c.utf8Size = 1) ∧
    (5 = 0 ∨ decimalFI.reverse 5 ≠ 0) ∧
    (decimalFI.writeU64 5).2 = decimalFI.lenU64 5 :=
  ⟨by decide, Or.inr (by decide),
    claim1_write_count_eq_len decimalFI 5 (by decide) (Or.inr (by decide))⟩

/-- C1 fails as stated: with the two-byte digit `'α'` as zero digit, writing
the value 0 reports 2 bytes while `len` reports 1. -/
theorem claim1_counterexample :
    (alphaFI.writeU64 0).2 = 2 ∧ alphaFI.lenU64 0 = 1 ∧
    (alphaFI.writeU64 0).2 ≠ alphaFI.lenU64 0 := by decide

/-- C2: the digit-count claim fails at the 64-bit boundary: `num_digits`
reports 19 decimal digits for `u64::MAX`, whose canonical decimal expansion
has 20 digits, and 15 hex digits under the library's own `HEX` descriptor,
whose canonical hex expansion has 16. -/
theorem claim2_num_digits_boundary_bug :
    decimalFI.num_digits (2 ^ 64 - 1) = 19 ∧
    (canonDigitsLE 10 (2 ^ 64 - 1)).length = 20 ∧
    HEX.num_digits (2 ^ 64 - 1) = 15 ∧
    (canonDigitsLE 16 (2 ^ 64 - 1)).length = 16 := by decide

/-- C3 (amended): the digit-emission phase of `write` produces exactly the
canonical most-significant-first digit sequence (zero rendering as the single
zero digit) for every magnitude dominated by a radix power below 2^64. -/
theorem claim3_digit_emission_canonical (fi : FormattedInt) (x k : Nat)
    (hb : 2 ≤ fi.digits.length)
    (hx : x < fi.digits.length ^ k) (hk : fi.digits.length ^ k < W64) :
    fi.digitChars x = canonicalDigitChars fi x :=
  digitChars_canonical fi hb x k hx hk

/-- Witness for C3: 255 under `HEX` renders as "ff" and 8 in binary as
"1000". -/
theorem claim3_digit_emission_canonical_witness :
    2 ≤ HEX.digits.length ∧ 255 < HEX.digits.length ^ 2 ∧ HEX.digits.length ^ 2 < W64 ∧
    HEX.digitChars 255 = ['f', 'f'] ∧
    binFI.digitChars 8 = ['1', '0', '0', '0'] :=
  ⟨by decide, by decide, by decide,
    (claim3_digit_emission_canonical HEX 255 2 (by decide) (by decide) (by decide)).trans
      (by decide),
    (claim3_digit_emission_canonical binFI 8 4 (by decide) (by decide) (by decide)).trans
      (by decide)⟩

/-- C3 fails as stated for every magnitude: at `10^19` the decimal emission
drops a digit (19 digits instead of the canonical 20). -/
theorem claim3_counterexample :
    decimalFI.digitChars (10 ^ 19) = '1' :: List.replicate 18 '0' ∧
    canonicalDigitChars decimalFI (10 ^ 19) = '1' :: List.replicate 19 '0' ∧
    decimalFI.digitChars (10 ^ 19) ≠ canonicalDigitChars decimalFI (10 ^ 19) := by decide

/-- C4: `x.abs()` does overflow at `i64::MIN` (debug builds panic); under the
release wrapping semantics modelled here the magnitude 2^63 comes out right
and the output is '-' followed by the canonical decimal digits of 2^63. -/
theorem claim4_i64_min :
    i64AbsOverflows (-(2 ^ 63)) = true ∧
    i64AbsAsU64 (-(2 ^ 63)) = 2 ^ 63 ∧
    decimalFI.writeI64 (-(2 ^ 63)) =
      ('-' :: ['9', '2', '2', '3', '3', '7', '2', '0', '3', '6',
               '8', '5', '4', '7', '7', '5', '8', '0', '8'], 20) ∧
    canonicalDigitChars decimalFI (2 ^ 63) =
      ['9', '2', '2', '3', '3', '7', '2', '0', '3', '6',
       '8', '5', '4', '7', '7', '5', '8', '0', '8'] := by decide

/-- C5: the three sign policies on the i64 values 5 and -5 with the decimal
alphabet, no affixes and minimum length 0. -/
theorem claim5_sign_policies :
    plusFI.writeI64 5 = (['+', '5'], 2) ∧
    spaceFI.writeI64 5 = ([' ', '5'], 2) ∧
    decimalFI.writeI64 5 = (['5'], 1) ∧
    plusFI.writeI64 (-5) = (['-', '5'], 2) ∧
    spaceFI.writeI64 (-5) = (['-', '5'], 2) ∧
    decimalFI.writeI64 (-5) = (['-', '5'], 2) := by decide

/-- C6: `len` is `max(num_digits, min_len)` plus the affix byte lengths plus
the sign length; the sign length is 1 for Plus/Space and 0 for Empty; and the
i64 path adds exactly one byte exactly for a negative value under Empty. -/
theorem claim6_len_formula (fi : FormattedInt) (x : Nat) (y : Int) :
    fi.lenU64 x = max (fi.num_digits x) fi.min_len + byteLen fi.pre + byteLen fi.suf +
      fi.sign_len ∧
    fi.sign_len = (if fi.sign = SignPolicy.Empty then 0 else 1) ∧
    fi.lenI64 y = fi.lenU64 (i64AbsAsU64 y) +
      (if fi.sign = SignPolicy.Empty ∧ y < 0 then 1 else 0) := by
  refine ⟨?_, ?_, ?_⟩
  · simp only [FormattedInt.lenU64, FormattedInt.with_fanciness]
    split <;> omega
  · unfold FormattedInt.sign_len
    cases fi.sign <;> decide
  · unfold FormattedInt.lenI64
    by_cases h : fi.sign = SignPolicy.Empty ∧ y < 0
    · rw [if_pos h, if_pos h]
    · rw [if_neg h, if_neg h, Nat.add_zero]

/-- C7: `write` emits, between the front affix and the digit sequence,
exactly `min_len - min(num_digits x, min_len)` copies of the zero digit; in
particular 7 at minimum length 4 renders as "0007". -/
theorem claim7_padding (fi : FormattedInt) (x : Nat) :
    ((fi.writeU64 x).1 = fi.signChars ++ fi.pre ++
      List.replicate (fi.min_len - min (fi.num_digits x) fi.min_len)
        (fi.digits.getD 0 ' ') ++ fi.digitChars x ++ fi.suf) ∧
    pad4FI.writeU64 7 = (['0', '0', '0', '7'], 4) :=
  ⟨rfl, by decide⟩

/-- C8: `Rep(count).len` is `count` times the inner length; and on the
instrumented inner value, `Rep(count).write` performs exactly `count`
sequential inner writes summing their byte counts, or stops at the first
failing iteration `j`, propagating its error with no later iteration run. -/
theorem claim8_rep :
    (∀ (σ ε : Type) (t : ShowM σ ε) (count : Nat), repLen count t = count * t.len) ∧
    (∀ (ε : Type) (c : Nat → Nat) (j L count : Nat) (e : ε),
      repWrite count (stepWriter c j e L) 0 =
        if count ≤ j then (Except.ok (((List.range count).map c).sum), count)
        else (Except.error e, j)) := by
  constructor
  · intro σ ε t count
    rfl
  · intro ε c j L count e
    unfold repWrite
    rw [repWriteLoop_step c j e L count 0 0 (Nat.zero_le j)]
    simp [Nat.zero_add]

/-- C9: if every element before `f` succeeds and `f` fails with `e`, the
pipeline returns exactly `(error e)`: the byte counts accumulated so far are
discarded and the elements after `f` never touch the sink (the final sink
state is the one `f` left). -/
theorem claim9_pipeline_failure {σ ε : Type} :
    ∀ (pre post : List (ElemWriter σ ε)) (f : ElemWriter σ ε) (w0 w1 : Nat)
      (s0 s1 s2 : σ) (e : ε),
      produceWrite w0 s0 pre = (Except.ok w1, s1) →
      f s1 = (Except.error e, s2) →
      produceWrite w0 s0 (pre ++ f :: post) = (Except.error e, s2) := by
  intro pre
  induction pre with
  | nil =>
    intro post f w0 w1 s0 s1 s2 e h1 h2
    simp only [produceWrite] at h1
    injection h1 with hA hB
    injection hA with hA
    subst hA
    subst hB
    simp only [List.nil_append, produceWrite, h2]
  | cons g pre ih =>
    intro post f w0 w1 s0 s1 s2 e h1 h2
    rcases hg : g s0 with ⟨res, sg⟩
    cases res with
    | ok n =>
      simp only [produceWrite, hg] at h1
      simp only [List.cons_append, produceWrite, hg]
      exact ih post f (n + w0) w1 sg s1 s2 e h1 h2
    | error err =>
      simp only [produceWrite, hg] at h1
      simp at h1

/-- Witness for C9 on a three-element pipeline over a counting sink. -/
theorem claim9_pipeline_failure_witness :
    produceWrite 0 0 [witElemA] = (Except.ok 3, 1) ∧
    witElemFail 1 = (Except.error 7, 1) ∧
    produceWrite 0 0 ([witElemA] ++ witElemFail :: [witElemB]) = (Except.error 7, 1) :=
  ⟨rfl, rfl, claim9_pipeline_failure [witElemA] [witElemB] witElemFail 0 3 0 1 1 7 rfl rfl⟩

/-- C10 (amended): `len` counts each digit and pad position as one byte;
`write` reports the full UTF-8 size of what it emits; and over the magnitudes
whose reversal accumulator is faithful (zero, or nonzero reversal), the
write/len agreement holds exactly when every digit glyph is one byte. -/
theorem claim10_one_byte_model (fi : FormattedInt) (hb : 2 ≤ fi.digits.length)
    (hW : fi.digits.length < W64) :
    (∀ x, fi.lenU64 x = max (fi.num_digits x) fi.min_len + byteLen fi.pre +
        byteLen fi.suf + fi.sign_len) ∧
    (∀ x, (fi.writeU64 x).2 = byteLen (fi.writeU64 x).1) ∧
    ((∀ x, x = 0 ∨ fi.reverse x ≠ 0 → (fi.writeU64 x).2 = fi.lenU64 x) ↔
      (∀ c ∈ fi.digits, c.utf8Size = 1)) := by
  refine ⟨fun x => ?_, fun x => rfl, ?_⟩
  · simp only [FormattedInt.lenU64, FormattedInt.with_fanciness]
    split <;> omega
  · constructor
    · exact agree_imp_ascii fi hb hW
    · intro hd x hrev
      exact write_len_agree fi x hd hrev

/-- Witness for C10 at the decimal descriptor. -/
theorem claim10_one_byte_model_witness :
    2 ≤ decimalFI.digits.length ∧ decimalFI.digits.length < W64 ∧
    ((∀ x, x = 0 ∨ decimalFI.reverse x ≠ 0 →
        (decimalFI.writeU64 x).2 = decimalFI.lenU64 x) ↔
      (∀ c ∈ decimalFI.digits, c.utf8Size = 1)) :=
  ⟨by decide, by decide, (claim10_one_byte_model decimalFI (by decide) (by decide)).2.2⟩

/-- C10's "exactly when" fails as stated: the all-ASCII base-5 alphabet still
disagrees at 13259161230289304912, whose reversal accumulator wraps to 0, so
write reports 1 byte while len reports 27. -/
theorem claim10_counterexample :
    (∀ c ∈ quinFI.digits, c.utf8Size = 1) ∧
    quinFI.reverse 13259161230289304912 = 0 ∧
    (quinFI.writeU64 13259161230289304912).2 = 1 ∧
    quinFI.lenU64 13259161230289304912 = 27 := by decide
